import Mathlib

/-!
# Verification of the triple-extraction-and-graph-assembly pipeline

Shallow embedding of the Streamlit knowledge-graph scripts
(`milestone4_code.py`, `semantic_code.py`, `sample6.py`).  The external
NLP components (spaCy parses, sentence-transformer embeddings) are
parameters of the embedded functions: a sentence arrives already
annotated as a list of tokens, and a similarity scorer is passed in as a
function.  Everything the scripts themselves compute is modelled
faithfully, character by character where it matters (CSV serialization,
string normalization, substring matching).
-/

namespace KG

/-- An annotated token as produced by the dependency parser: surface
text, part-of-speech tag, dependency label, and the left/right
dependents (`token.lefts` / `token.rights` in spaCy). -/
inductive Token : Type where
  | mk : String → String → String → List Token → List Token → Token
deriving Repr

def Token.text : Token → String
  | .mk t _ _ _ _ => t

def Token.pos : Token → String
  | .mk _ p _ _ _ => p

def Token.dep : Token → String
  | .mk _ _ d _ _ => d

def Token.lefts : Token → List Token
  | .mk _ _ _ l _ => l

def Token.rights : Token → List Token
  | .mk _ _ _ _ r => r

/-- An extracted (subject, predicate, object) triple; the three columns
`Entity1`, `Relation`, `Entity2` of the pipeline's triple store. -/
structure Triple where
  e1 : String
  rel : String
  e2 : String
deriving DecidableEq, Repr

/-- Dependency labels accepted for the subject (left) side. -/
def subjDeps : List String := ["nsubj", "nsubjpass"]

/-- Dependency labels accepted for the object (right) side. -/
def objDeps : List String := ["dobj", "attr", "dative", "oprd"]

/-- Body of the loop of `extract_relations` (identical in all variants):
for a ROOT verb, collect left dependents with a subject label and right
dependents with an object label; if both lists are nonempty append
(subject[0], token.text, obj[0]). -/
def extractStep (relations : List Triple) (token : Token) : List Triple :=
  if token.dep = "ROOT" ∧ token.pos = "VERB" then
    match (token.lefts.filter (fun w => subjDeps.contains w.dep)).map Token.text,
          (token.rights.filter (fun w => objDeps.contains w.dep)).map Token.text with
    | s :: _, o :: _ => relations ++ [⟨s, token.text, o⟩]
    | _, _ => relations
  else relations

/-- `extract_relations` from the scripts: fold the per-token loop body
over the annotated sentence, starting from the empty list. -/
def extract_relations (doc : List Token) : List Triple :=
  doc.foldl extractStep []

/-- The triple contributed by one token according to the specification:
for a ROOT verb, the first left dependent with a subject label and the
first right dependent with an object label, if both exist. -/
def rootTriple (token : Token) : Option Triple :=
  if token.dep = "ROOT" ∧ token.pos = "VERB" then
    match token.lefts.find? (fun w => subjDeps.contains w.dep),
          token.rights.find? (fun w => objDeps.contains w.dep) with
    | some s, some o => some ⟨s.text, token.text, o.text⟩
    | _, _ => none
  else none

/-- A networkx `DiGraph`: insertion-ordered node list (never holding a
node twice) and at most one labelled edge per ordered (source, target)
pair, stored as (source, target, label). -/
structure Digraph where
  nodes : List String
  edges : List (String × String × String)
deriving DecidableEq, Repr

/-- `G.add_node(n)`: a no-op when the node is present, else append. -/
def addNode (g : Digraph) (n : String) : Digraph :=
  if n ∈ g.nodes then g else { g with nodes := g.nodes ++ [n] }

/-- The effect of `G.add_edge(u, v, label=l)` on a `DiGraph` edge list:
overwrite the label of the existing (u, v) edge in place, or append a
new edge when the pair is absent. -/
def setEdgeLabel : List (String × String × String) → String → String → String →
    List (String × String × String)
  | [], u, v, l => [(u, v, l)]
  | e :: es, u, v, l =>
      if e.1 = u ∧ e.2.1 = v then (u, v, l) :: es else e :: setEdgeLabel es u v l

/-- `G.add_edge(u, v, label=l)`: missing endpoints are added, then the
(u, v) edge is created or its label attribute overwritten. -/
def addEdge (g : Digraph) (u v l : String) : Digraph :=
  let g2 := addNode (addNode g u) v
  { g2 with edges := setEdgeLabel g2.edges u v l }

/-- One iteration of the graph-assembly loop of
`visualize_knowledge_graph` (all variants): `G.add_node(row["Entity1"])`,
`G.add_node(row["Entity2"])`, `G.add_edge(..., label=row["Relation"])`. -/
def graphStep (g : Digraph) (t : Triple) : Digraph :=
  addEdge (addNode (addNode g t.e1) t.e2) t.e1 t.e2 t.rel

/-- The graph assembled by `visualize_knowledge_graph` from the triple
table. -/
def buildGraph (ts : List Triple) : Digraph :=
  ts.foldl graphStep ⟨[], []⟩

/-- The ordered (source, target) pair of a stored edge. -/
def edgeKey (e : String × String × String) : String × String := (e.1, e.2.1)

/-- The ordered (subject, object) pair of a triple. -/
def pairOf (t : Triple) : String × String := (t.e1, t.e2)

/-- Label carried by the (p.1, p.2) edge of an edge list, if present. -/
def findLabel (es : List (String × String × String)) (p : String × String) :
    Option String :=
  (es.find? (fun e => edgeKey e = p)).map (fun e => e.2.2)

/-- The relation of the last triple of `ts` whose (subject, object) pair
is `p`, if any. -/
def lastLabel (ts : List Triple) (p : String × String) : Option String :=
  ((ts.filter (fun t => pairOf t = p)).map Triple.rel).getLast?

/-- Python `str.lower()`, character by character (adequate for the
ASCII strings handled here). -/
def lowerChars (s : List Char) : List Char := s.map Char.toLower

/-- The pattern removed by `normalize`: the characters of `"the "`. -/
def thePat : List Char := ['t', 'h', 'e', ' ']

/-- Python `str.replace("the ", "")`: delete every non-overlapping
occurrence of the pattern, scanning left to right. -/
def removeAll : List Char → List Char
  | [] => []
  | 't' :: 'h' :: 'e' :: ' ' :: rest => removeAll rest
  | c :: cs => c :: removeAll cs

/-- The characters stripped by Python `str.strip()` with no argument. -/
def pyWhitespace (c : Char) : Bool :=
  c = ' ' ∨ c = '\t' ∨ c = '\n' ∨ c = '\r' ∨ c = '\x0b' ∨ c = '\x0c'

/-- Python `str.strip()`: drop whitespace from both ends. -/
def pyStrip (s : List Char) : List Char :=
  ((s.dropWhile pyWhitespace).reverse.dropWhile pyWhitespace).reverse

/-- `normalize` from milestone4_code.py:
`text.lower().replace("the ", "").strip()`. -/
def normalize (s : String) : String :=
  ⟨pyStrip (removeAll (lowerChars s.data))⟩

/-- The behaviour the claim ascribes to `normalize`: lowercase, then
remove only a leading `"the "` prefix, leaving inner occurrences (and
surrounding whitespace) unchanged. -/
def normalizeClaimed (s : String) : String :=
  let l := lowerChars s.data
  if thePat.isPrefixOf l then ⟨l.drop 4⟩ else ⟨l⟩

/-- First-occurrence deduplication (the behaviour of pandas
`drop_duplicates` on a column), with an accumulator of already-seen
values. -/
def dedupFirstAux {α : Type} [DecidableEq α] (seen : List α) : List α → List α
  | [] => []
  | x :: xs =>
      if x ∈ seen then dedupFirstAux seen xs
      else x :: dedupFirstAux (x :: seen) xs

/-- Keep the first occurrence of each value, preserving order. -/
def dedupFirst {α : Type} [DecidableEq α] (l : List α) : List α :=
  dedupFirstAux [] l

/-- Outcome of one upload-and-run of a script variant. -/
inductive PipeOutcome where
  | validationError (msg : String)
  | completed (triples : List Triple)
  | crashed (err : String)
deriving DecidableEq, Repr

/-- The validation message every variant shows when the required column
is missing (quotes around the column name elided). -/
def requiredColMsg : String := "File must contain a column named sentence"

/-- The triple-accumulation loop over all annotated sentences:
`for text in df["sentence"].dropna(): triples.extend(extract_relations(text))`. -/
def extractAll (docs : List (List Token)) : List Triple :=
  docs.foldl (fun acc d => acc ++ extract_relations d) []

/-- Module-level flow of milestone4_code.py after an upload: validate
the `sentence` column; the whole remainder of the script is inside the
else-branch. -/
def m4_upload (cols : List String) (docs : List (List Token)) : PipeOutcome :=
  if "sentence" ∈ cols then PipeOutcome.completed (extractAll docs)
  else PipeOutcome.validationError requiredColMsg

/-- Module-level flow of the first script in sample6.py (lines
127-210): same shape as milestone4_code.py. -/
def sample6a_upload (cols : List String) (docs : List (List Token)) : PipeOutcome :=
  if "sentence" ∈ cols then PipeOutcome.completed (extractAll docs)
  else PipeOutcome.validationError requiredColMsg

/-- Module-level flow of the second script in sample6.py (lines
307-316): a missing column triggers `st.error` followed by `st.stop()`,
which halts the script run cleanly. -/
def sample6b_upload (cols : List String) (docs : List (List Token)) : PipeOutcome :=
  if "sentence" ∉ cols then PipeOutcome.validationError requiredColMsg
  else PipeOutcome.completed (extractAll docs)

/-- Module-level flow of semantic_code.py: the else-branch of the
validation binds `triples_df` (lines 72-88), but the final two lines
(89-90) are dedented out of the else-branch and run unconditionally,
reading `triples_df`; when validation failed that name was never bound
and the read raises `NameError`. -/
def semantic_upload (cols : List String) (docs : List (List Token)) : PipeOutcome :=
  let triples_df : Option (List Triple) :=
    if "sentence" ∈ cols then some (extractAll docs) else none
  match triples_df with
  | some ts => PipeOutcome.completed ts
  | none => PipeOutcome.crashed "NameError: name triples_df is not defined"

/-- A pandas DataFrame as the scripts use one: named columns of
strings, in column order. -/
structure Frame where
  cols : List (String × List String)
deriving DecidableEq, Repr

/-- `df[name]`: the first column of that name ([] when absent). -/
def Frame.get (df : Frame) (name : String) : List String :=
  match df.cols.find? (fun p => p.1 = name) with
  | some p => p.2
  | none => []

def setColAux (name : String) (v : List String) :
    List (String × List String) → List (String × List String)
  | [] => [(name, v)]
  | p :: ps => if p.1 = name then (name, v) :: ps else p :: setColAux name v ps

/-- `df[name] = v`: replace the column in place, or append a new one. -/
def Frame.set (df : Frame) (name : String) (v : List String) : Frame :=
  ⟨setColAux name v df.cols⟩

/-- The synthesized phrase of one triple row:
`f"{row['Entity1']} {row['Relation']} {row['Entity2']}"`. -/
def rowSentence (a b c : String) : String := a ++ " " ++ b ++ " " ++ c

/-- One synthesized sentence per row of the triple table
(`triples_df.apply(..., axis=1)`). -/
def synthSentences (df : Frame) : List String :=
  List.zipWith3 rowSentence (df.get "Entity1") (df.get "Relation") (df.get "Entity2")

/-- Stable insertion into a descending-sorted list (by key): the new,
originally-earlier element goes before elements of equal key. -/
def insertDescBy {α β : Type} [LinearOrder β] (key : α → β) (x : α) :
    List α → List α
  | [] => [x]
  | y :: ys => if key y ≤ key x then x :: y :: ys else y :: insertDescBy key x ys

/-- Python `sorted(l, key=key, reverse=True)`.  A stable descending
sort is unique, so insertion sort is extensionally the same function as
Python's sort. -/
def sortDescBy {α β : Type} [LinearOrder β] (key : α → β) (l : List α) : List α :=
  l.foldr (insertDescBy key) []

/-- All unordered pairs (indices i < j) with their similarity score, in
the enumeration order of the nested loops of `link_domains`. -/
def allPairs (sim : String → String → Int) : List String → List (String × String × Int)
  | [] => []
  | x :: xs => xs.map (fun y => (x, y, sim x y)) ++ allPairs sim xs

/-- `link_domains` of milestone4_code.py: assign the synthesized
`sentence` column (a mutation of the caller's dataframe, returned here
as the second component), deduplicate, score all unordered pairs, keep
the top 10 by descending score, and of those return the ones above the
threshold.  The cosine similarity of the external embedding model is
the parameter `sim`, standing for the already-rounded score the code
compares and sorts by. -/
def link_domains (sim : String → String → Int) (df : Frame) (threshold : Int) :
    List (String × String × Int) × Frame :=
  let df2 := df.set "sentence" (synthSentences df)
  let sentences := dedupFirst (df2.get "sentence")
  if sentences.length < 2 then ([], df2)
  else
    let linked := allPairs sim sentences
    let top := (sortDescBy (fun q => q.2.2) linked).take 10
    (top.filter (fun q => decide (threshold < q.2.2)), df2)

/-- `link_domains` of sample6.py: all pairs of distinct entity strings,
filtered by the threshold inline in the loop — neither sorted nor
capped.  (Python's `list(set(...))` order is implementation-defined;
the model fixes first-occurrence order, which the settled properties do
not depend on.) -/
def link_domains_s6 (sim : String → String → Int) (df : Frame) (threshold : Int) :
    List (String × String × Int) :=
  let entities := dedupFirst (df.get "Entity1" ++ df.get "Entity2")
  if entities.length < 2 then []
  else (allPairs sim entities).filter (fun q => decide (threshold < q.2.2))

/-- In+out degree of a node in a `DiGraph` (each neighbour edge counted
once, as networkx `G.degree` does on a simple digraph). -/
def degree (g : Digraph) (n : String) : Nat :=
  (g.edges.filter (fun e => e.1 = n)).length +
    (g.edges.filter (fun e => e.2.1 = n)).length

/-- networkx `degree_centrality`: degree scaled by 1/(n-1), with the
small-graph special case returning 1 for every node. -/
def degreeCentrality (g : Digraph) : List (String × ℚ) :=
  if g.nodes.length ≤ 1 then g.nodes.map (fun n => (n, (1 : ℚ)))
  else g.nodes.map (fun n => (n, (degree g n : ℚ) / ((g.nodes.length : ℚ) - 1)))

/-- What the analytics section of `visualize_knowledge_graph`
(milestone4_code.py, duplicated in sample6.py) reports: the empty-graph
warning, or the top-5 centrality list together with either the
community list or the caught-exception warning. -/
inductive AnalyticsReport where
  | emptyGraph (msg : String)
  | report (topCentral : List (String × ℚ))
      (communities : Option (List (List String))) (warning : Option String)

/-- The analytics section of `visualize_knowledge_graph`: guard on a
nonempty node set, report top-5 degree centrality, and run community
detection inside try/except, downgrading its errors to a warning.  The
external community-detection routine is the parameter `comm`; a raised
exception is its `Except.error` case. -/
def m4_analytics (comm : Digraph → Except String (List (List String)))
    (g : Digraph) : AnalyticsReport :=
  if 0 < g.nodes.length then
    let top := (sortDescBy (fun q => q.2) (degreeCentrality g)).take 5
    match comm g with
    | Except.ok cs => AnalyticsReport.report top (some cs) none
    | Except.error e =>
        AnalyticsReport.report top none (some ("Community detection skipped: " ++ e))
  else AnalyticsReport.emptyGraph "No nodes available for centrality or community analysis."

/-- Report of the module-level analytics of the second sample6.py
script. -/
inductive S6Report where
  | emptyWarning (msg : String)
  | communities (partition : List (String × Nat))
deriving DecidableEq, Repr

/-- Module-level analytics of the second sample6.py script (lines
338-362): the Louvain call is guarded by a node-count check but wrapped
in no try/except, so an internal error of `louvain` propagates out of
the step (the `Except.error` result). -/
def s6_module_analytics (louvain : Digraph → Except String (List (String × Nat)))
    (g : Digraph) : Except String S6Report :=
  if 0 < g.nodes.length then
    match louvain g with
    | Except.ok part => Except.ok (S6Report.communities part)
    | Except.error e => Except.error e
  else Except.ok (S6Report.emptyWarning "Graph is empty, cannot compute communities.")

/-- `s.lower()` on a whole string. -/
def lowerStr (s : String) : String := ⟨lowerChars s.data⟩

/-- Python's substring test `needle in hay` on character lists. -/
def isSubstr (needle : List Char) : List Char → Bool
  | [] => needle.isEmpty
  | c :: cs => needle.isPrefixOf (c :: cs) || isSubstr needle cs

/-- The row test of the query-answering loop: some extracted term is a
case-insensitive substring of the row's subject or of its object. -/
def rowMatches (terms : List String) (t : Triple) : Bool :=
  terms.any (fun q =>
    isSubstr (lowerStr q).data (lowerStr t.e1).data ||
    isSubstr (lowerStr q).data (lowerStr t.e2).data)

/-- The sentence milestone4_code.py prints for one matching row. -/
def tripleSentence (t : Triple) : String := t.e1 ++ " " ++ t.rel ++ " " ++ t.e2

/-- The display loop of milestone4_code.py query answering: print each
matching row's sentence unless it is in the `seen` set. -/
def displayLoop (seen : List String) : List Triple → List String
  | [] => []
  | r :: rs =>
      if tripleSentence r ∈ seen then displayLoop seen rs
      else tripleSentence r :: displayLoop (tripleSentence r :: seen) rs

/-- milestone4_code.py query answering, given the terms extracted from
the question by the external NLP (entities ++ noun/proper-noun tokens):
filter the matching rows in insertion order, then deduplicate the
displayed sentences via the `seen` set. -/
def m4_answers (terms : List String) (triples : List Triple) : List String :=
  displayLoop [] (triples.filter (rowMatches terms))

/-- sample6.py query answering: the matching rows are displayed as a
dataframe directly, without any deduplication. -/
def s6_answers (terms : List String) (triples : List Triple) : List Triple :=
  triples.filter (rowMatches terms)

/-- Characters that force quoting in pandas `to_csv` (QUOTE_MINIMAL):
the delimiter, the quote character and the line-break characters. -/
def csvSpecial (c : Char) : Bool :=
  c = ',' ∨ c = '"' ∨ c = '\n' ∨ c = '\r'

/-- CSV escaping inside a quoted field: double every quote character. -/
def escapeQuotes : List Char → List Char
  | [] => []
  | c :: cs => if c = '"' then '"' :: '"' :: escapeQuotes cs else c :: escapeQuotes cs

/-- One serialized CSV field, quoted exactly when needed. -/
def encodeField (s : List Char) : List Char :=
  if s.any csvSpecial then '"' :: (escapeQuotes s ++ ['"']) else s

/-- One serialized data row, `Entity1,Relation,Entity2` (newline added
by the caller). -/
def encodeRow (t : Triple) : List Char :=
  encodeField t.e1.data ++ ',' :: (encodeField t.rel.data ++ ',' :: encodeField t.e2.data)

/-- `triples_df.to_csv("triples_output.csv", index=False)`: the header
line, then one line per stored triple, each line ending in a newline;
no row is deduplicated or reordered. -/
def serializeTriples (ts : List Triple) : List Char :=
  ("Entity1,Relation,Entity2".data ++ ['\n']) ++
    ts.flatMap (fun t => encodeRow t ++ ['\n'])

/-- Modelled from the spec: the repository only writes
`triples_output.csv` and never reads it back, so the reader side of the
spec's "Triple store round-trip" property is missing from the source
and is modelled from the spec's words as a standard CSV reader
returning the rows of fields.  One character at a time; `inQ` is the
inside-a-quoted-field state; `field` and `row` accumulate the current
field and row in reverse. -/
def csvScan : List Char → Bool → List Char → List String → List (List String) →
    List (List String)
  | [], _, field, row, rows =>
      if field = [] ∧ row = [] then rows.reverse
      else ((⟨field.reverse⟩ :: row).reverse :: rows).reverse
  | c :: cs, inQ, field, row, rows =>
      if inQ then
        if c = '"' then
          match cs with
          | '"' :: cs2 => csvScan cs2 true ('"' :: field) row rows
          | [] => csvScan [] false field row rows
          | c2 :: cs2 => csvScan (c2 :: cs2) false field row rows
        else csvScan cs true (c :: field) row rows
      else
        if c = '"' then csvScan cs true field row rows
        else if c = ',' then csvScan cs false [] (⟨field.reverse⟩ :: row) rows
        else if c = '\n' then
          csvScan cs false [] [] ((⟨field.reverse⟩ :: row).reverse :: rows)
        else csvScan cs inQ (c :: field) row rows
termination_by s _ _ _ _ => s.length
decreasing_by all_goals (simp_wf <;> omega)

/-- Modelled from the spec: parse a CSV document into rows of string
fields (see `csvScan`). -/
def parseCSV (s : List Char) : List (List String) := csvScan s false [] [] []

theorem find?_eq_filter_head {α : Type} (p : α → Bool) (l : List α) :
    l.find? p = (l.filter p).head? := by
  induction l with
  | nil => rfl
  | cons a l ih =>
      rw [List.find?_cons, List.filter_cons]
      by_cases h : p a
      · simp [h]
      · rw [Bool.not_eq_true] at h
        simp only [h, Bool.false_eq_true, if_false, ih]

theorem extractStep_eq (acc : List Triple) (t : Token) :
    extractStep acc t = acc ++ (rootTriple t).toList := by
  unfold extractStep rootTriple
  by_cases hroot : t.dep = "ROOT" ∧ t.pos = "VERB"
  · rw [if_pos hroot, if_pos hroot, find?_eq_filter_head, find?_eq_filter_head]
    cases hs : t.lefts.filter (fun w => subjDeps.contains w.dep) with
    | nil => cases ho : t.rights.filter (fun w => objDeps.contains w.dep) <;> simp
    | cons s ss => cases ho : t.rights.filter (fun w => objDeps.contains w.dep) <;> simp
  · rw [if_neg hroot, if_neg hroot]
    simp

theorem extract_relations_go (doc : List Token) (acc : List Triple) :
    doc.foldl extractStep acc = acc ++ doc.filterMap rootTriple := by
  induction doc generalizing acc with
  | nil => simp
  | cons t doc ih =>
      rw [List.foldl_cons, ih, extractStep_eq]
      cases h : rootTriple t <;> simp [h]

theorem addNode_edges (g : Digraph) (n : String) :
    (addNode g n).edges = g.edges := by
  unfold addNode
  split <;> rfl

theorem addNode_mem (g : Digraph) (n m : String) :
    m ∈ (addNode g n).nodes ↔ m ∈ g.nodes ∨ m = n := by
  unfold addNode
  by_cases h : n ∈ g.nodes
  · rw [if_pos h]
    constructor
    · exact fun hm => Or.inl hm
    · rintro (hm | rfl)
      · exact hm
      · exact h
  · rw [if_neg h]
    simp

theorem addNode_of_mem (g : Digraph) (n : String) (h : n ∈ g.nodes) :
    addNode g n = g := by
  unfold addNode
  rw [if_pos h]

theorem addEdge_nodes (g : Digraph) (u v l : String) :
    (addEdge g u v l).nodes = (addNode (addNode g u) v).nodes := rfl

theorem graphStep_mem (g : Digraph) (t : Triple) (n : String) :
    n ∈ (graphStep g t).nodes ↔ n ∈ g.nodes ∨ n = t.e1 ∨ n = t.e2 := by
  unfold graphStep
  rw [addEdge_nodes, addNode_mem, addNode_mem, addNode_mem, addNode_mem]
  tauto

theorem buildGraph_go_mem (ts : List Triple) (g : Digraph) (n : String) :
    n ∈ (ts.foldl graphStep g).nodes ↔
      n ∈ g.nodes ∨ ∃ t ∈ ts, n = t.e1 ∨ n = t.e2 := by
  induction ts generalizing g with
  | nil => simp
  | cons t ts ih =>
      rw [List.foldl_cons, ih, graphStep_mem]
      simp only [List.mem_cons]
      constructor
      · rintro ((h | h | h) | ⟨u, hu, hor⟩)
        · exact Or.inl h
        · exact Or.inr ⟨t, Or.inl rfl, Or.inl h⟩
        · exact Or.inr ⟨t, Or.inl rfl, Or.inr h⟩
        · exact Or.inr ⟨u, Or.inr hu, hor⟩
      · rintro (h | ⟨u, hu | hu, hor⟩)
        · exact Or.inl (Or.inl h)
        · subst hu
          exact Or.inl (Or.inr hor)
        · exact Or.inr ⟨u, hu, hor⟩

theorem buildGraph_mem (ts : List Triple) (n : String) :
    n ∈ (buildGraph ts).nodes ↔ ∃ t ∈ ts, n = t.e1 ∨ n = t.e2 := by
  unfold buildGraph
  rw [buildGraph_go_mem]
  simp

theorem graphStep_edges (g : Digraph) (t : Triple) :
    (graphStep g t).edges = setEdgeLabel g.edges t.e1 t.e2 t.rel := by
  unfold graphStep addEdge
  simp only [addNode_edges]

theorem edgeKey_of_parts {e : String × String × String} {u v : String}
    (h1 : e.1 = u) (h2 : e.2.1 = v) : edgeKey e = (u, v) := by
  unfold edgeKey
  rw [h1, h2]

theorem parts_of_edgeKey {e : String × String × String} {u v : String}
    (h : edgeKey e = (u, v)) : e.1 = u ∧ e.2.1 = v :=
  ⟨congrArg Prod.fst h, congrArg Prod.snd h⟩

theorem setEdgeLabel_keys (es : List (String × String × String)) (u v l : String) :
    (setEdgeLabel es u v l).map edgeKey =
      if (u, v) ∈ es.map edgeKey then es.map edgeKey
      else es.map edgeKey ++ [(u, v)] := by
  induction es with
  | nil => simp [setEdgeLabel, edgeKey]
  | cons e es ih =>
      rw [setEdgeLabel]
      by_cases h : e.1 = u ∧ e.2.1 = v
      · have hk : edgeKey e = (u, v) := edgeKey_of_parts h.1 h.2
        rw [if_pos h]
        simp only [List.map_cons, hk]
        rw [if_pos (List.mem_cons_self _ _)]
        rfl
      · have hk : edgeKey e ≠ (u, v) := fun hc => h (parts_of_edgeKey hc)
        rw [if_neg h]
        simp only [List.map_cons, ih, List.mem_cons]
        by_cases hmem : (u, v) ∈ es.map edgeKey
        · rw [if_pos hmem, if_pos (Or.inr hmem)]
        · rw [if_neg hmem, if_neg ?_]
          · simp
          · rintro (hc | hc)
            · exact hk hc.symm
            · exact hmem hc

theorem findLabel_nil (p : String × String) : findLabel [] p = none := rfl

theorem findLabel_cons (e : String × String × String)
    (es : List (String × String × String)) (p : String × String) :
    findLabel (e :: es) p =
      if edgeKey e = p then some e.2.2 else findLabel es p := by
  unfold findLabel
  rw [List.find?_cons]
  by_cases h : edgeKey e = p
  · simp [h]
  · simp [h]

theorem findLabel_setEdgeLabel (es : List (String × String × String))
    (u v l : String) (p : String × String) :
    findLabel (setEdgeLabel es u v l) p =
      if p = (u, v) then some l else findLabel es p := by
  have hk2 : edgeKey ((u, v, l) : String × String × String) = (u, v) := rfl
  induction es with
  | nil =>
      show findLabel [(u, v, l)] p = _
      rw [findLabel_cons, hk2, findLabel_nil]
      by_cases h : p = (u, v)
      · rw [if_pos h.symm, if_pos h]
      · rw [if_neg (fun hc => h hc.symm), if_neg h]
  | cons e es ih =>
      rw [setEdgeLabel]
      by_cases h : e.1 = u ∧ e.2.1 = v
      · have hk : edgeKey e = (u, v) := edgeKey_of_parts h.1 h.2
        rw [if_pos h, findLabel_cons, findLabel_cons, hk, hk2]
        by_cases hp : p = (u, v)
        · rw [if_pos hp.symm, if_pos hp]
        · rw [if_neg (fun hc => hp hc.symm), if_neg hp,
            if_neg (fun hc => hp hc.symm)]
      · rw [if_neg h, findLabel_cons, ih, findLabel_cons]
        by_cases hke : edgeKey e = p
        · have hp : p ≠ (u, v) := by
            rintro rfl
            exact h (parts_of_edgeKey hke)
          rw [if_pos hke, if_neg hp, if_pos hke]
        · rw [if_neg hke]
          by_cases hp : p = (u, v)
          · rw [if_pos hp, if_pos hp]
          · rw [if_neg hp, if_neg hp, if_neg hke]

theorem dedupFirstAux_cons {α : Type} [DecidableEq α] (seen : List α) (y : α)
    (ys : List α) :
    dedupFirstAux seen (y :: ys) =
      if y ∈ seen then dedupFirstAux seen ys
      else y :: dedupFirstAux (y :: seen) ys := rfl

theorem dedupFirstAux_concat {α : Type} [DecidableEq α] (seen l : List α) (x : α) :
    dedupFirstAux seen (l ++ [x]) =
      dedupFirstAux seen l ++ (if x ∈ seen ∨ x ∈ l then [] else [x]) := by
  induction l generalizing seen with
  | nil =>
      by_cases hx : x ∈ seen
      · simp [dedupFirstAux, hx]
      · simp [dedupFirstAux, hx]
  | cons y ys ih =>
      rw [List.cons_append, dedupFirstAux_cons, dedupFirstAux_cons]
      by_cases hy : y ∈ seen
      · rw [if_pos hy, if_pos hy, ih]
        refine congrArg _ (if_congr ?_ rfl rfl)
        simp only [List.mem_cons]
        constructor
        · tauto
        · rintro (h | rfl | h2)
          · exact Or.inl h
          · exact Or.inl hy
          · exact Or.inr h2
      · rw [if_neg hy, if_neg hy, ih, List.cons_append]
        refine congrArg _ (congrArg _ (if_congr ?_ rfl rfl))
        simp only [List.mem_cons]
        tauto

theorem dedupFirst_concat {α : Type} [DecidableEq α] (l : List α) (x : α) :
    dedupFirst (l ++ [x]) =
      if x ∈ l then dedupFirst l else dedupFirst l ++ [x] := by
  unfold dedupFirst
  rw [dedupFirstAux_concat]
  by_cases hx : x ∈ l
  · rw [if_pos (Or.inr hx), if_pos hx, List.append_nil]
  · rw [if_neg ?_, if_neg hx]
    rintro (h | h)
    · exact (List.not_mem_nil x) h
    · exact hx h

theorem mem_dedupFirstAux {α : Type} [DecidableEq α] (seen l : List α) (x : α) :
    x ∈ dedupFirstAux seen l ↔ x ∈ l ∧ x ∉ seen := by
  induction l generalizing seen with
  | nil => simp [dedupFirstAux]
  | cons y ys ih =>
      rw [dedupFirstAux_cons]
      by_cases hy : y ∈ seen
      · rw [if_pos hy, ih, List.mem_cons]
        constructor
        · rintro ⟨h, hn⟩
          exact ⟨Or.inr h, hn⟩
        · rintro ⟨h | h, hn⟩
          · subst h
            exact absurd hy hn
          · exact ⟨h, hn⟩
      · rw [if_neg hy]
        simp only [List.mem_cons, ih]
        by_cases hxy : x = y
        · subst hxy
          simp [hy]
        · simp [hxy]

theorem mem_dedupFirst {α : Type} [DecidableEq α] (l : List α) (x : α) :
    x ∈ dedupFirst l ↔ x ∈ l := by
  unfold dedupFirst
  rw [mem_dedupFirstAux]
  simp

theorem lastLabel_concat (ts : List Triple) (t : Triple) (p : String × String) :
    lastLabel (ts ++ [t]) p =
      if pairOf t = p then some t.rel else lastLabel ts p := by
  unfold lastLabel
  rw [List.filter_append]
  by_cases h : pairOf t = p
  · rw [if_pos h]
    have hf : List.filter (fun u => decide (pairOf u = p)) [t] = [t] := by
      simp [h]
    rw [hf, List.map_append]
    simp
  · rw [if_neg h]
    have hf : List.filter (fun u => decide (pairOf u = p)) [t] = [] := by
      simp [h]
    rw [hf, List.append_nil]

theorem buildGraph_concat (ts : List Triple) (t : Triple) :
    buildGraph (ts ++ [t]) = graphStep (buildGraph ts) t := by
  unfold buildGraph
  rw [List.foldl_append, List.foldl_cons, List.foldl_nil]

theorem buildGraph_edges_spec (ts : List Triple) :
    (buildGraph ts).edges.map edgeKey = dedupFirst (ts.map pairOf) ∧
      ∀ p, findLabel (buildGraph ts).edges p = lastLabel ts p := by
  induction ts using List.reverseRecOn with
  | nil => exact ⟨rfl, fun p => rfl⟩
  | append_singleton ts t ih =>
      obtain ⟨ihk, ihl⟩ := ih
      have hmap : (ts ++ [t]).map pairOf = ts.map pairOf ++ [pairOf t] := by
        rw [List.map_append]
        rfl
      constructor
      · rw [buildGraph_concat, graphStep_edges, setEdgeLabel_keys, ihk, hmap,
          dedupFirst_concat]
        have hpt : ((t.e1, t.e2) : String × String) = pairOf t := rfl
        rw [hpt]
        by_cases hmem : pairOf t ∈ ts.map pairOf
        · rw [if_pos ((mem_dedupFirst _ _).mpr hmem), if_pos hmem]
        · rw [if_neg (fun hc => hmem ((mem_dedupFirst _ _).mp hc)), if_neg hmem]
      · intro p
        rw [buildGraph_concat, graphStep_edges, findLabel_setEdgeLabel, ihl,
          lastLabel_concat]
        have hpt : pairOf t = ((t.e1, t.e2) : String × String) := rfl
        rw [hpt]
        by_cases hp : p = (t.e1, t.e2)
        · rw [if_pos hp, if_pos hp.symm]
        · rw [if_neg hp, if_neg (fun hc => hp hc.symm)]

/-- C1: the claim asserts multigraph semantics — edge count equal to the
triple count, parallel labelled edges preserved.  The code builds a
networkx `DiGraph`, so two triples with the same (subject, object) pair
collapse to a single edge and the first label is overwritten: with
input [(A, r1, B), (A, r2, B)] the graph has one edge labelled r2, not
two edges. -/
theorem C1_counterexample :
    (buildGraph [⟨"A", "r1", "B"⟩, ⟨"A", "r2", "B"⟩]).edges = [("A", "B", "r2")] ∧
    (buildGraph [⟨"A", "r1", "B"⟩, ⟨"A", "r2", "B"⟩]).edges.length = 1 ∧
    ([(⟨"A", "r1", "B"⟩ : Triple), ⟨"A", "r2", "B"⟩]).length = 2 ∧
    ¬(buildGraph [⟨"A", "r1", "B"⟩, ⟨"A", "r2", "B"⟩]).edges.length
        = ([(⟨"A", "r1", "B"⟩ : Triple), ⟨"A", "r2", "B"⟩]).length := by
  decide

/-- C1 (amended): the assembled graph is a simple directed graph: its
edge (source, target) pairs are exactly the distinct (subject, object)
pairs of the input triples in first-occurrence order — so the edge count
is the number of distinct such pairs — and each edge carries the label
of the last input triple with that pair (later parallel triples
overwrite earlier labels rather than adding edges). -/
theorem C1_amended (ts : List Triple) :
    (buildGraph ts).edges.map edgeKey = dedupFirst (ts.map pairOf) ∧
    (buildGraph ts).edges.length = (dedupFirst (ts.map pairOf)).length ∧
    ∀ p, findLabel (buildGraph ts).edges p = lastLabel ts p := by
  obtain ⟨hk, hl⟩ := buildGraph_edges_spec ts
  refine ⟨hk, ?_, hl⟩
  rw [← hk, List.length_map]

/-- C2: for every annotated sentence, `extract_relations` emits exactly
one triple per ROOT-verb token having a subject-labelled left dependent
and an object-labelled right dependent — (first such left dependent's
text, root's text, first such right dependent's text) — in token order,
and the empty list when no token qualifies. -/
theorem C2_extract_relations (doc : List Token) :
    extract_relations doc = doc.filterMap rootTriple ∧
    ((∀ t ∈ doc, rootTriple t = none) → extract_relations doc = []) := by
  have h : extract_relations doc = doc.filterMap rootTriple := by
    unfold extract_relations
    rw [extract_relations_go, List.nil_append]
  refine ⟨h, fun hnone => ?_⟩
  rw [h]
  exact List.filterMap_eq_nil_iff.mpr hnone

/-- Witness for C2 at a concrete sentence: a one-token sentence whose
token is not a ROOT verb yields no triples. -/
theorem C2_witness :
    extract_relations [Token.mk "cat" "NOUN" "nsubj" [] []] = [] :=
  (C2_extract_relations [Token.mk "cat" "NOUN" "nsubj" [] []]).2 (by decide)

theorem removeAll_cons_of_ne (c : Char) (l : List Char) (h : c ≠ 't') :
    removeAll (c :: l) = c :: removeAll l := by
  rw [removeAll.eq_def]
  split
  · injection ‹c :: l = []›
  · rename_i heq
    injection heq with h1 _
    exact absurd h1 h
  · rename_i heq
    injection heq with h1 h2
    rw [h1, h2]

theorem removeAll_thePat (ys : List Char) :
    removeAll (thePat ++ ys) = removeAll ys := rfl

theorem removeAll_append_of_no_t (xs ys : List Char)
    (h : ∀ c ∈ xs, c ≠ 't') :
    removeAll (xs ++ ys) = xs ++ removeAll ys := by
  induction xs with
  | nil => simp
  | cons c cs ih =>
      rw [List.cons_append,
        removeAll_cons_of_ne c _ (h c (List.mem_cons_self c cs)),
        ih (fun d hd => h d (List.mem_cons_of_mem c hd)), List.cons_append]

theorem lowerChars_append (a b : List Char) :
    lowerChars (a ++ b) = lowerChars a ++ lowerChars b := by
  unfold lowerChars
  rw [List.map_append]

/-- C6: the claim says `normalize` removes only a leading `"the "` and
leaves inner occurrences unchanged.  The code calls Python
`str.replace`, which removes every occurrence: on `"x the y"` the code
yields `"x y"`, while the claimed behaviour yields `"x the y"`. -/
theorem C6_counterexample :
    normalize "x the y" = "x y" ∧
    normalizeClaimed "x the y" = "x the y" ∧
    normalize "x the y" ≠ normalizeClaimed "x the y" := by
  decide

/-- C6 (amended): `normalize` lowercases, removes every non-overlapping
occurrence of `"the "` (scanning left to right), then strips surrounding
whitespace; in particular an inner `"the "` after a prefix containing no
letter `t` is removed: inserting it does not change the result. -/
theorem C6_amended (x y : String)
    (h : ∀ c ∈ x.data, Char.toLower c ≠ 't') :
    normalize (x ++ "the " ++ y) = normalize (x ++ y) := by
  have hx : ∀ c ∈ lowerChars x.data, c ≠ 't' := by
    intro c hc
    rcases List.mem_map.mp hc with ⟨d, hd, rfl⟩
    exact h d hd
  have hthe : lowerChars thePat = thePat := by decide
  unfold normalize
  have hd1 : (x ++ "the " ++ y).data = x.data ++ (thePat ++ y.data) := by
    rw [String.data_append, String.data_append, List.append_assoc]
    rfl
  have hd2 : (x ++ y).data = x.data ++ y.data := String.data_append x y
  rw [hd1, hd2, lowerChars_append, lowerChars_append, lowerChars_append, hthe,
    removeAll_append_of_no_t _ _ hx, removeAll_append_of_no_t _ _ hx,
    removeAll_thePat]

/-- Witness for C6 (amended) at a concrete input: with prefix `"a "`
(no letter t) and suffix `"b"`, normalizing `"a the b"` equals
normalizing `"a b"`. -/
theorem C6_amended_witness :
    (∀ c ∈ ("a " : String).data, Char.toLower c ≠ 't') ∧
    normalize ("a " ++ "the " ++ "b") = normalize ("a " ++ "b") :=
  ⟨by decide, C6_amended "a " "b" (by decide)⟩

/-- C4: the node set of the assembled graph is exactly the set of
subject and object strings of the triples processed so far — stated for
every prefix of the input list — and adding an existing node is a
no-op. -/
theorem C4_nodes (ts : List Triple) :
    (∀ k, ∀ n, n ∈ (buildGraph (ts.take k)).nodes ↔
        ∃ t ∈ ts.take k, n = t.e1 ∨ n = t.e2) ∧
    ∀ g n, n ∈ g.nodes → addNode g n = g :=
  ⟨fun k n => buildGraph_mem (ts.take k) n,
   fun g n h => addNode_of_mem g n h⟩

/-- Witness for C4 at a concrete input: node membership for the
one-triple graph, and idempotence of re-adding its subject node. -/
theorem C4_nodes_witness :
    ("A" ∈ (buildGraph (([⟨"A", "r", "B"⟩] : List Triple).take 1)).nodes) ∧
    addNode (buildGraph [⟨"A", "r", "B"⟩]) "A" = buildGraph [⟨"A", "r", "B"⟩] := by
  have h := C4_nodes [⟨"A", "r", "B"⟩]
  refine ⟨((h.1 1 "A").mpr ⟨⟨"A", "r", "B"⟩, by decide, Or.inl rfl⟩), ?_⟩
  exact h.2 (buildGraph [⟨"A", "r", "B"⟩]) "A" (by decide)

/-- C3: on a table whose columns lack `sentence` (here a single `text`
column), milestone4_code.py and both sample6.py scripts show the
validation message and halt cleanly before extraction, but
semantic_code.py — whose final two lines sit outside the validation
else-branch — goes on to read the unbound `triples_df` and crashes with
`NameError`, contradicting the claim that no variant crashes. -/
theorem C3_missing_column :
    m4_upload ["text"] [] = PipeOutcome.validationError requiredColMsg ∧
    sample6a_upload ["text"] [] = PipeOutcome.validationError requiredColMsg ∧
    sample6b_upload ["text"] [] = PipeOutcome.validationError requiredColMsg ∧
    semantic_upload ["text"] [] =
      PipeOutcome.crashed "NameError: name triples_df is not defined" := by
  decide

theorem Frame.get_cons (p : String × List String)
    (ps : List (String × List String)) (name : String) :
    (Frame.mk (p :: ps)).get name =
      if p.1 = name then p.2 else (Frame.mk ps).get name := by
  unfold Frame.get
  rw [List.find?_cons]
  by_cases h : p.1 = name
  · simp [h]
  · simp [h]

theorem Frame.get_set_same (df : Frame) (name : String) (v : List String) :
    (df.set name v).get name = v := by
  obtain ⟨cols⟩ := df
  induction cols with
  | nil =>
      show (Frame.mk [(name, v)]).get name = v
      rw [Frame.get_cons, if_pos rfl]
  | cons p ps ih =>
      show (Frame.mk (setColAux name v (p :: ps))).get name = v
      rw [setColAux]
      by_cases hp : p.1 = name
      · rw [if_pos hp, Frame.get_cons, if_pos rfl]
      · rw [if_neg hp, Frame.get_cons, if_neg hp]
        exact ih

theorem Frame.get_set_other (df : Frame) (name other : String) (v : List String)
    (h : other ≠ name) : (df.set name v).get other = df.get other := by
  obtain ⟨cols⟩ := df
  have h1 : ¬ (name = other) := fun hc => h hc.symm
  induction cols with
  | nil =>
      show (Frame.mk [(name, v)]).get other = (Frame.mk []).get other
      rw [Frame.get_cons, if_neg h1]
  | cons p ps ih =>
      show (Frame.mk (setColAux name v (p :: ps))).get other =
        (Frame.mk (p :: ps)).get other
      rw [setColAux]
      by_cases hp : p.1 = name
      · rw [if_pos hp, Frame.get_cons, Frame.get_cons, if_neg h1]
        have h2 : ¬ (p.1 = other) := by
          rw [hp]
          exact h1
        rw [if_neg h2]
      · rw [if_neg hp, Frame.get_cons, Frame.get_cons]
        by_cases hq : p.1 = other
        · rw [if_pos hq, if_pos hq]
        · rw [if_neg hq, if_neg hq]
          exact ih

theorem link_domains_frame (sim : String → String → Int) (df : Frame) (t : Int) :
    (link_domains sim df t).2 = df.set "sentence" (synthSentences df) := by
  simp only [link_domains]
  rw [apply_ite Prod.snd]
  simp

/-- C10: in the milestone4 variant, `link_domains` mutates the caller's
triple table: afterwards it carries a `sentence` column holding the
synthesized "Entity1 Relation Entity2" string of each row, while every
other column is unchanged. -/
theorem C10_frame_effect (sim : String → String → Int) (df : Frame) (t : Int) :
    ((link_domains sim df t).2).get "sentence" = synthSentences df ∧
    ∀ name, name ≠ "sentence" →
      ((link_domains sim df t).2).get name = df.get name := by
  rw [link_domains_frame]
  exact ⟨Frame.get_set_same df _ _,
    fun name hn => Frame.get_set_other df _ name _ hn⟩

/-- Witness for C10 at a concrete one-row table: `Entity1` is unchanged
and `sentence` now holds the synthesized phrase. -/
theorem C10_frame_effect_witness :
    ((link_domains (fun _ _ => 0)
        (Frame.mk [("Entity1", ["a"]), ("Relation", ["r"]), ("Entity2", ["b"])])
        0).2).get "Entity1" = ["a"] ∧
    ((link_domains (fun _ _ => 0)
        (Frame.mk [("Entity1", ["a"]), ("Relation", ["r"]), ("Entity2", ["b"])])
        0).2).get "sentence" = ["a r b"] := by
  have h := C10_frame_effect (fun _ _ => 0)
    (Frame.mk [("Entity1", ["a"]), ("Relation", ["r"]), ("Entity2", ["b"])]) 0
  exact ⟨Eq.trans (h.2 "Entity1" (by decide)) (by decide),
    Eq.trans h.1 (by decide)⟩

/-- C8: the claim says a community-detection error is caught locally in
every variant.  The module-level analytics of the second sample6.py
script runs Louvain with no try/except: an internal error propagates
out of the analytics step instead of becoming a warning. -/
theorem C8_counterexample :
    s6_module_analytics (fun _ => Except.error "boom")
      (buildGraph [⟨"A", "r", "B"⟩]) = Except.error "boom" := by
  rfl

/-- C8 (amended): on the empty graph both the visualize-function
analytics and the module-level sample6 analytics report the empty-graph
condition without raising; a community-detection error is downgraded to
the non-fatal skipped warning in the milestone4 / sample6-visualize
analytics (inside try/except), but not in sample6's module-level
Louvain step. -/
theorem C8_amended :
    (∀ comm, m4_analytics comm (buildGraph []) =
      AnalyticsReport.emptyGraph
        "No nodes available for centrality or community analysis.") ∧
    (∀ comm g e, comm g = Except.error e → 0 < g.nodes.length →
      m4_analytics comm g =
        AnalyticsReport.report
          ((sortDescBy (fun q => q.2) (degreeCentrality g)).take 5)
          none (some ("Community detection skipped: " ++ e))) ∧
    (∀ louvain, s6_module_analytics louvain (buildGraph []) =
      Except.ok (S6Report.emptyWarning
        "Graph is empty, cannot compute communities.")) := by
  refine ⟨fun comm => rfl, ?_, fun louvain => rfl⟩
  intro comm g e hcomm hlen
  unfold m4_analytics
  rw [if_pos hlen, hcomm]

/-- Witness for C8 (amended) at a concrete graph and failing community
detector: the error string is downgraded to the skipped-warning
report. -/
theorem C8_amended_witness :
    ((fun (_ : Digraph) => (Except.error "boom" : Except String (List (List String))))
        (buildGraph [⟨"A", "r", "B"⟩]) = Except.error "boom") ∧
    0 < (buildGraph [⟨"A", "r", "B"⟩]).nodes.length ∧
    m4_analytics (fun _ => Except.error "boom") (buildGraph [⟨"A", "r", "B"⟩]) =
      AnalyticsReport.report
        ((sortDescBy (fun q => q.2)
          (degreeCentrality (buildGraph [⟨"A", "r", "B"⟩]))).take 5)
        none (some ("Community detection skipped: " ++ "boom")) :=
  ⟨rfl, by decide,
    C8_amended.2.1 (fun _ => Except.error "boom") (buildGraph [⟨"A", "r", "B"⟩])
      "boom" rfl (by decide)⟩

theorem displayLoop_eq (seen : List String) (rows : List Triple) :
    displayLoop seen rows = dedupFirstAux seen (rows.map tripleSentence) := by
  induction rows generalizing seen with
  | nil => rfl
  | cons r rs ih =>
      rw [displayLoop, List.map_cons, dedupFirstAux_cons]
      by_cases h : tripleSentence r ∈ seen
      · rw [if_pos h, if_pos h, ih]
      · rw [if_neg h, if_neg h, ih]

/-- C9: the claim says duplicate result sentences are suppressed before
display in the query-answering step.  sample6.py displays the matching
rows as a dataframe with no deduplication: two identical stored triples
matching the question produce two identical displayed sentences. -/
theorem C9_counterexample :
    (s6_answers ["Paris"]
        [⟨"Paris", "is", "capital"⟩, ⟨"Paris", "is", "capital"⟩]).map tripleSentence
      = ["Paris is capital", "Paris is capital"] ∧
    ¬ ((s6_answers ["Paris"]
        [⟨"Paris", "is", "capital"⟩, ⟨"Paris", "is", "capital"⟩]).map
          tripleSentence).Nodup := by
  decide

/-- C9 (amended): both variants return exactly the stored triples whose
subject or object contains one of the question's extracted terms as a
case-insensitive substring, in insertion order; milestone4_code.py then
deduplicates the displayed sentences (keeping first occurrences), while
sample6.py displays every matching row without deduplication. -/
theorem C9_amended (terms : List String) (triples : List Triple) :
    m4_answers terms triples =
      dedupFirst ((triples.filter (rowMatches terms)).map tripleSentence) ∧
    (s6_answers terms triples).Sublist triples ∧
    ∀ t, t ∈ s6_answers terms triples ↔
      t ∈ triples ∧ rowMatches terms t = true := by
  refine ⟨displayLoop_eq [] _, List.filter_sublist _, fun t => ?_⟩
  unfold s6_answers
  exact List.mem_filter

theorem mem_insertDescBy {α β : Type} [LinearOrder β] (key : α → β) (x z : α)
    (l : List α) : z ∈ insertDescBy key x l ↔ z = x ∨ z ∈ l := by
  induction l with
  | nil => simp [insertDescBy]
  | cons y ys ih =>
      rw [insertDescBy]
      by_cases h : key y ≤ key x
      · rw [if_pos h]
        simp [List.mem_cons]
      · rw [if_neg h]
        rw [List.mem_cons, ih, List.mem_cons]
        tauto

theorem insertDescBy_pairwise {α β : Type} [LinearOrder β] (key : α → β) (x : α)
    (l : List α) (h : l.Pairwise (fun a b => key b ≤ key a)) :
    (insertDescBy key x l).Pairwise (fun a b => key b ≤ key a) := by
  induction l with
  | nil => simp [insertDescBy]
  | cons y ys ih =>
      rw [List.pairwise_cons] at h
      rw [insertDescBy]
      by_cases hxy : key y ≤ key x
      · rw [if_pos hxy, List.pairwise_cons]
        refine ⟨?_, List.pairwise_cons.mpr h⟩
        intro z hz
        rcases List.mem_cons.mp hz with rfl | hz2
        · exact hxy
        · exact le_trans (h.1 z hz2) hxy
      · rw [if_neg hxy, List.pairwise_cons]
        refine ⟨?_, ih h.2⟩
        intro z hz
        rcases (mem_insertDescBy key x z ys).mp hz with rfl | hz2
        · exact le_of_lt (not_le.mp hxy)
        · exact h.1 z hz2

theorem sortDescBy_pairwise {α β : Type} [LinearOrder β] (key : α → β)
    (l : List α) :
    (sortDescBy key l).Pairwise (fun a b => key b ≤ key a) := by
  induction l with
  | nil => exact List.Pairwise.nil
  | cons x l ih => exact insertDescBy_pairwise key x _ ih

theorem filter_eq_nil_of_le {α β : Type} [LinearOrder β] (key : α → β) (t : β)
    (s : List α) (h : ∀ z ∈ s, key z ≤ t) :
    s.filter (fun a => decide (t < key a)) = [] := by
  induction s with
  | nil => rfl
  | cons y ys ih =>
      rw [List.filter_cons]
      have hd : (decide (t < key y)) = false := by
        simp only [decide_eq_false_iff_not, not_lt]
        exact h y (List.mem_cons_self y ys)
      rw [hd]
      simp only [Bool.false_eq_true, if_false]
      exact ih (fun z hz => h z (List.mem_cons_of_mem y hz))

theorem filter_insertDescBy {α β : Type} [LinearOrder β] (key : α → β) (t : β)
    (x : α) (s : List α) (hs : s.Pairwise (fun a b => key b ≤ key a)) :
    (insertDescBy key x s).filter (fun a => decide (t < key a)) =
      if t < key x then
        insertDescBy key x (s.filter (fun a => decide (t < key a)))
      else s.filter (fun a => decide (t < key a)) := by
  induction s with
  | nil =>
      rw [insertDescBy]
      by_cases hx : t < key x
      · have hd : (decide (t < key x)) = true := by simp [hx]
        rw [if_pos hx, List.filter_cons, hd]
        rfl
      · have hd : (decide (t < key x)) = false := by simp [hx]
        rw [if_neg hx, List.filter_cons, hd]
        simp
  | cons y ys ih =>
      rw [List.pairwise_cons] at hs
      have ihy := ih hs.2
      rw [insertDescBy]
      by_cases hxy : key y ≤ key x
      · rw [if_pos hxy]
        by_cases hx : t < key x
        · have hdx : (decide (t < key x)) = true := by simp [hx]
          rw [if_pos hx, List.filter_cons, hdx]
          simp only [if_true]
          by_cases hy : t < key y
          · have hdy : (decide (t < key y)) = true := by simp [hy]
            rw [List.filter_cons, hdy]
            simp only [if_true]
            rw [insertDescBy, if_pos hxy]
          · have hdy : (decide (t < key y)) = false := by simp [hy]
            rw [List.filter_cons, hdy]
            simp only [Bool.false_eq_true, if_false]
            have hnil : ys.filter (fun a => decide (t < key a)) = [] :=
              filter_eq_nil_of_le key t ys
                (fun z hz => le_trans (hs.1 z hz) (not_lt.mp hy))
            rw [hnil, insertDescBy]
        · have hdx : (decide (t < key x)) = false := by simp [hx]
          rw [if_neg hx, List.filter_cons, hdx]
          simp
      · rw [if_neg hxy]
        rw [List.filter_cons]
        by_cases hy : t < key y
        · have hdy : (decide (t < key y)) = true := by simp [hy]
          rw [hdy]
          simp only [if_true]
          rw [ihy]
          by_cases hx : t < key x
          · rw [if_pos hx, if_pos hx, List.filter_cons, hdy]
            simp only [if_true]
            rw [insertDescBy, if_neg hxy]
          · rw [if_neg hx, if_neg hx, List.filter_cons, hdy]
            simp only [if_true]
        · have hdy : (decide (t < key y)) = false := by simp [hy]
          rw [hdy]
          simp only [Bool.false_eq_true, if_false]
          rw [ihy]
          have hx : ¬ t < key x :=
            fun hc => hy (lt_of_lt_of_le hc (le_of_lt (not_le.mp hxy)))
          rw [if_neg hx, if_neg hx, List.filter_cons, hdy]
          simp

theorem sortDescBy_filter_comm {α β : Type} [LinearOrder β] (key : α → β)
    (t : β) (l : List α) :
    sortDescBy key (l.filter (fun a => decide (t < key a))) =
      (sortDescBy key l).filter (fun a => decide (t < key a)) := by
  induction l with
  | nil => rfl
  | cons x l ih =>
      rw [List.filter_cons]
      have hsx : sortDescBy key (x :: l) = insertDescBy key x (sortDescBy key l) := rfl
      rw [hsx, filter_insertDescBy key t x _ (sortDescBy_pairwise key l)]
      by_cases hx : t < key x
      · have hd : (decide (t < key x)) = true := by simp [hx]
        rw [hd]
        simp only [if_true]
        rw [if_pos hx, ← ih]
        rfl
      · have hd : (decide (t < key x)) = false := by simp [hx]
        rw [hd]
        simp only [Bool.false_eq_true, if_false]
        rw [if_neg hx, ih]

theorem filter_eq_takeWhile_of_sorted {α β : Type} [LinearOrder β]
    (key : α → β) (t : β) (s : List α)
    (hs : s.Pairwise (fun a b => key b ≤ key a)) :
    s.filter (fun a => decide (t < key a)) =
      s.takeWhile (fun a => decide (t < key a)) := by
  induction s with
  | nil => rfl
  | cons y ys ih =>
      rw [List.pairwise_cons] at hs
      rw [List.filter_cons, List.takeWhile_cons]
      by_cases hy : t < key y
      · have hd : (decide (t < key y)) = true := by simp [hy]
        rw [hd]
        simp only [if_true]
        rw [ih hs.2]
      · have hd : (decide (t < key y)) = false := by simp [hy]
        rw [hd]
        simp only [Bool.false_eq_true, if_false]
        exact filter_eq_nil_of_le key t ys
          (fun z hz => le_trans (hs.1 z hz) (not_lt.mp hy))

theorem take_takeWhile_comm {α : Type} (p : α → Bool) (n : Nat) (s : List α) :
    (s.takeWhile p).take n = (s.take n).takeWhile p := by
  induction s generalizing n with
  | nil => simp
  | cons y ys ih =>
      cases n with
      | zero => simp
      | succ m =>
          rw [List.takeWhile_cons]
          by_cases hy : p y
          · rw [if_pos hy, List.take_succ_cons, List.take_succ_cons,
              List.takeWhile_cons, if_pos hy, ih]
          · rw [if_neg hy, List.take_succ_cons, List.takeWhile_cons, if_neg hy]
            simp

theorem sorted_take_filter_comm {α β : Type} [LinearOrder β] (key : α → β)
    (t : β) (l : List α) (n : Nat) :
    ((sortDescBy key l).take n).filter (fun a => decide (t < key a)) =
      (sortDescBy key (l.filter (fun a => decide (t < key a)))).take n := by
  have hs := sortDescBy_pairwise key l
  rw [sortDescBy_filter_comm, filter_eq_takeWhile_of_sorted key t _ hs,
    take_takeWhile_comm,
    ← filter_eq_takeWhile_of_sorted key t _
      (hs.sublist (List.take_sublist n (sortDescBy key l)))]

theorem allPairs_short (sim : String → String → Int) (l : List String)
    (h : l.length < 2) : allPairs sim l = [] := by
  rcases l with _ | ⟨x, _ | ⟨y, xs⟩⟩
  · rfl
  · rfl
  · simp at h
    omega

/-- C7: the claim says every variant returns the above-threshold pairs
sorted by descending similarity and capped at the top 10.  sample6.py's
`link_domains` neither sorts nor caps: with six distinct entities all
pairwise-similar above the threshold it returns all 15 pairs. -/
theorem C7_counterexample :
    10 < (link_domains_s6 (fun _ _ => 1)
      (Frame.mk [("Entity1", ["a", "b", "c"]), ("Entity2", ["d", "e", "f"])])
      0).length := by
  decide

/-- C7 (amended): the milestone4 variant returns exactly the pairs of
distinct synthesized sentences whose similarity exceeds the threshold,
sorted by descending similarity and capped at the top 10 (its
take-10-then-filter equals the claimed filter-sort-cap because the
above-threshold entries form a prefix of the descending order); the
sample6 variant returns exactly the above-threshold pairs of distinct
entity strings in enumeration order, unsorted and uncapped. -/
theorem C7_amended (sim : String → String → Int) (df : Frame) (t : Int) :
    (link_domains sim df t).1 =
      (sortDescBy (fun q => q.2.2)
        ((allPairs sim (dedupFirst (synthSentences df))).filter
          (fun q => decide (t < q.2.2)))).take 10 ∧
    (link_domains_s6 sim df t).Sublist
      (allPairs sim (dedupFirst (df.get "Entity1" ++ df.get "Entity2"))) ∧
    ∀ q, q ∈ link_domains_s6 sim df t ↔
      q ∈ allPairs sim (dedupFirst (df.get "Entity1" ++ df.get "Entity2")) ∧
        t < q.2.2 := by
  refine ⟨?_, ?_, ?_⟩
  · simp only [link_domains, Frame.get_set_same]
    by_cases hlen : (dedupFirst (synthSentences df)).length < 2
    · rw [if_pos hlen, allPairs_short sim _ hlen]
      rfl
    · rw [if_neg hlen]
      exact sorted_take_filter_comm (fun q : String × String × Int => q.2.2) t _ 10
  · simp only [link_domains_s6]
    by_cases hlen :
        (dedupFirst (df.get "Entity1" ++ df.get "Entity2")).length < 2
    · rw [if_pos hlen]
      exact List.nil_sublist _
    · rw [if_neg hlen]
      exact List.filter_sublist _
  · intro q
    simp only [link_domains_s6]
    by_cases hlen :
        (dedupFirst (df.get "Entity1" ++ df.get "Entity2")).length < 2
    · rw [if_pos hlen, allPairs_short sim _ hlen]
      simp
    · rw [if_neg hlen, List.mem_filter]
      simp

theorem csvScan_nil_step (inQ : Bool) (field : List Char) (row : List String)
    (rows : List (List String)) :
    csvScan [] inQ field row rows =
      if field = [] ∧ row = [] then rows.reverse
      else ((⟨field.reverse⟩ :: row).reverse :: rows).reverse := by
  rw [csvScan.eq_def]

theorem csvScan_openQuote (cs : List Char) (field : List Char) (row : List String)
    (rows : List (List String)) :
    csvScan ('"' :: cs) false field row rows = csvScan cs true field row rows := by
  rw [csvScan.eq_def]
  simp

theorem csvScan_comma (cs : List Char) (field : List Char) (row : List String)
    (rows : List (List String)) :
    csvScan (',' :: cs) false field row rows =
      csvScan cs false [] (⟨field.reverse⟩ :: row) rows := by
  rw [csvScan.eq_def]
  simp

theorem csvScan_newline (cs : List Char) (field : List Char) (row : List String)
    (rows : List (List String)) :
    csvScan ('\n' :: cs) false field row rows =
      csvScan cs false [] [] ((⟨field.reverse⟩ :: row).reverse :: rows) := by
  rw [csvScan.eq_def]
  simp

theorem csvScan_unquoted_char (c : Char) (cs : List Char) (field : List Char)
    (row : List String) (rows : List (List String))
    (h1 : c ≠ '"') (h2 : c ≠ ',') (h3 : c ≠ '\n') :
    csvScan (c :: cs) false field row rows =
      csvScan cs false (c :: field) row rows := by
  rw [csvScan.eq_def]
  simp [h1, h2, h3]

theorem csvScan_quoted_char (c : Char) (cs : List Char) (field : List Char)
    (row : List String) (rows : List (List String)) (h1 : c ≠ '"') :
    csvScan (c :: cs) true field row rows =
      csvScan cs true (c :: field) row rows := by
  rw [csvScan.eq_def]
  simp [h1]

theorem csvScan_escQuote (cs : List Char) (field : List Char) (row : List String)
    (rows : List (List String)) :
    csvScan ('"' :: '"' :: cs) true field row rows =
      csvScan cs true ('"' :: field) row rows := by
  rw [csvScan.eq_def]
  simp

theorem csvScan_closeQuote (rest : List Char) (field : List Char)
    (row : List String) (rows : List (List String))
    (hrest : rest.head? ≠ some '"') :
    csvScan ('"' :: rest) true field row rows =
      csvScan rest false field row rows := by
  rcases rest with _ | ⟨c2, r2⟩
  · rw [csvScan.eq_def]
    simp
  · have hc : c2 ≠ '"' := by
      intro hc
      rw [hc] at hrest
      exact hrest rfl
    rw [csvScan.eq_def]
    simp [hc]

theorem csvScan_unquoted_run (s : List Char) (rest : List Char)
    (field : List Char) (row : List String) (rows : List (List String))
    (h : ∀ c ∈ s, csvSpecial c = false) :
    csvScan (s ++ rest) false field row rows =
      csvScan rest false (s.reverse ++ field) row rows := by
  induction s generalizing field with
  | nil => simp
  | cons c s ih =>
      have hc := h c (List.mem_cons_self c s)
      simp only [csvSpecial, decide_eq_false_iff_not] at hc
      push_neg at hc
      rw [List.cons_append,
        csvScan_unquoted_char c _ _ _ _ hc.2.1 hc.1 hc.2.2.1,
        ih _ (fun d hd => h d (List.mem_cons_of_mem c hd)),
        List.reverse_cons, List.append_assoc, List.singleton_append]

theorem escapeQuotes_quote (s : List Char) :
    escapeQuotes ('"' :: s) = '"' :: '"' :: escapeQuotes s := by
  simp [escapeQuotes]

theorem escapeQuotes_other (c : Char) (s : List Char) (h : c ≠ '"') :
    escapeQuotes (c :: s) = c :: escapeQuotes s := by
  simp [escapeQuotes, h]

theorem csvScan_quoted_run (s : List Char) (rest : List Char)
    (field : List Char) (row : List String) (rows : List (List String))
    (hrest : rest.head? ≠ some '"') :
    csvScan (escapeQuotes s ++ '"' :: rest) true field row rows =
      csvScan rest false (s.reverse ++ field) row rows := by
  induction s generalizing field with
  | nil =>
      show csvScan ('"' :: rest) true field row rows = _
      rw [csvScan_closeQuote rest field row rows hrest]
      simp
  | cons c s ih =>
      by_cases hc : c = '"'
      · subst hc
        rw [escapeQuotes_quote, List.cons_append, List.cons_append,
          csvScan_escQuote, ih, List.reverse_cons, List.append_assoc,
          List.singleton_append]
      · rw [escapeQuotes_other c s hc, List.cons_append,
          csvScan_quoted_char c _ _ _ _ hc, ih, List.reverse_cons,
          List.append_assoc, List.singleton_append]

theorem csvScan_field (s : List Char) (sep : Char) (r : List Char)
    (field : List Char) (row : List String) (rows : List (List String))
    (hsep : sep = ',' ∨ sep = '\n') :
    csvScan (encodeField s ++ sep :: r) false field row rows =
      csvScan (sep :: r) false (s.reverse ++ field) row rows := by
  have hsep2 : (sep :: r).head? ≠ some '"' := by
    rcases hsep with rfl | rfl <;> simp
  unfold encodeField
  by_cases hq : s.any csvSpecial
  · rw [if_pos hq, List.cons_append, List.append_assoc, List.singleton_append,
      csvScan_openQuote, csvScan_quoted_run s (sep :: r) field row rows hsep2]
  · rw [if_neg hq]
    apply csvScan_unquoted_run
    intro c hcmem
    by_contra hcc
    rw [Bool.not_eq_false] at hcc
    exact hq (List.any_eq_true.mpr ⟨c, hcmem, hcc⟩)

theorem csvScan_row (t : Triple) (rest : List Char) (rows : List (List String)) :
    csvScan (encodeRow t ++ '\n' :: rest) false [] [] rows =
      csvScan rest false [] [] ([t.e1, t.rel, t.e2] :: rows) := by
  unfold encodeRow
  simp only [List.append_assoc, List.cons_append]
  rw [csvScan_field _ ',' _ _ _ _ (Or.inl rfl), csvScan_comma,
    csvScan_field _ ',' _ _ _ _ (Or.inl rfl), csvScan_comma,
    csvScan_field _ '\n' _ _ _ _ (Or.inr rfl), csvScan_newline]
  simp

theorem csvScan_rows (ts : List Triple) (rows : List (List String)) :
    csvScan (ts.flatMap (fun t => encodeRow t ++ ['\n'])) false [] [] rows =
      rows.reverse ++ ts.map (fun t => [t.e1, t.rel, t.e2]) := by
  induction ts generalizing rows with
  | nil =>
      show csvScan [] false [] [] rows = _
      rw [csvScan_nil_step]
      simp
  | cons t ts ih =>
      have hfm : (t :: ts).flatMap (fun u => encodeRow u ++ ['\n']) =
          encodeRow t ++ '\n' :: ts.flatMap (fun u => encodeRow u ++ ['\n']) := by
        rw [List.flatMap_cons, List.append_assoc, List.singleton_append]
      rw [hfm, csvScan_row, ih]
      simp

/-- C5: serializing the triple store (header plus one line per triple,
in insertion order, duplicates retained) to the three-column CSV format
and parsing it back yields the header row followed by exactly one row
per stored triple, carrying the same (Entity1, Relation, Entity2)
values in the same order — for every list of triples, including ones
whose fields need quoting and exact duplicates. -/
theorem C5_roundtrip (ts : List Triple) :
    parseCSV (serializeTriples ts) =
      ["Entity1", "Relation", "Entity2"] :: ts.map (fun t => [t.e1, t.rel, t.e2]) ∧
    (parseCSV (serializeTriples ts)).length = ts.length + 1 := by
  have hhdr : ("Entity1,Relation,Entity2".data : List Char) =
      encodeRow ⟨"Entity1", "Relation", "Entity2"⟩ := by decide
  have hmain : parseCSV (serializeTriples ts) =
      ["Entity1", "Relation", "Entity2"] :: ts.map (fun t => [t.e1, t.rel, t.e2]) := by
    unfold parseCSV serializeTriples
    rw [hhdr, List.append_assoc, List.singleton_append, csvScan_row, csvScan_rows]
    rfl
  refine ⟨hmain, ?_⟩
  rw [hmain]
  simp

end KG
